import Mathlib

/-!
Verification of the content-aggregation module `src/data/post.ts`.

The module operates on a collection of articles ("posts"), each carrying an
identifying path (`id`), a `draft` flag, a `publishDate` and a list of `tags`.
We embed the five exported operations as total Lean functions over lists:

* `getAllPosts`   — the visibility filter (`getCollection` with a predicate);
  the ambient `import.meta.env.PROD` flag becomes an explicit `prod : Bool`
  parameter and the raw collection an explicit input list.
* `groupPostsByYear` — the `reduce` into a record keyed by publish year;
  the record is embedded as an association list built exactly as the JS
  `reduce` builds it (lookup, create-bucket-on-first-encounter, push).
* `getAllTags`    — `posts.flatMap(post => [...post.data.tags])`.
* `getUniqueTags` — `[...new Set(getAllTags(posts))]`; a JS `Set` keeps
  insertion order, so the spread is a first-occurrence-order dedup,
  embedded as `jsSetDedup`.
* `getUniqueTagsWithCount` — the `reduce` into a `Map` (insertion-ordered,
  `set` updates in place) followed by a stable sort with comparator
  `(a, b) => b[1] - a[1]`; the `Map` is embedded as an association list with
  JS `Map` semantics (`mapGet`/`mapSet`) and the stable descending sort as
  `List.mergeSort` with the ordering `countDesc`.
-/

/-- The `publishDate` field: a calendar date, of which only the year is used
by this module (`getFullYear`). -/
structure PostDate where
  year : Int
deriving DecidableEq, Repr

/-- Embeds `Date.prototype.getFullYear` — extract the calendar year. -/
def PostDate.getFullYear (d : PostDate) : Int :=
  d.year

/-- An article: `CollectionEntry<"post">` with the metadata fields this module
reads (`id` at the entry level, `draft`, `publishDate`, `tags` under `data`). -/
structure Post where
  id : String
  draft : Bool
  publishDate : PostDate
  tags : List String
deriving DecidableEq, Repr

/-- Embeds the JS `String.prototype.startsWith` used on `id`: the character
sequence of the candidate is an initial segment of the character sequence of
the string. -/
def strStartsWith (s pre : String) : Bool :=
  pre.data.isPrefixOf s.data

/-- The filter callback passed to `getCollection` in `getAllPosts`:
in production, keep a post only if it is not a draft and its `id` does not
start with the demo path `"demo/"`; in development, keep every non-draft. -/
def visibleInMode (prod : Bool) (p : Post) : Bool :=
  if prod then
    let isDemo := strStartsWith p.id ("demo/")
    !p.draft && !isDemo
  else
    !p.draft

/-- Embeds `getAllPosts`: `getCollection("post", pred)` returns the entries of the
collection satisfying the predicate, in collection order — i.e. a filter of
the raw article list. -/
def getAllPosts (prod : Bool) (posts : List Post) : List Post :=
  posts.filter (visibleInMode prod)

/-- Lookup `acc[year]` on the accumulator record of `groupPostsByYear`. -/
def yearGet (acc : List (Int × List Post)) (year : Int) : Option (List Post) :=
  (acc.find? (fun e => e.1 == year)).map (fun e => e.2)

/-- Embeds the push `acc[year]?.push(post)`: append `post` to the bucket stored under key
`year`, leaving other buckets unchanged. -/
def yearPush (acc : List (Int × List Post)) (year : Int) (post : Post) :
    List (Int × List Post) :=
  acc.map (fun e => if e.1 == year then (e.1, e.2 ++ [post]) else e)

/-- One step of the `reduce` in `groupPostsByYear`: create the bucket on
first encounter (`if (!acc[year]) acc[year] = []`), then push the post. -/
def groupStep (acc : List (Int × List Post)) (post : Post) :
    List (Int × List Post) :=
  yearPush
    (if (yearGet acc post.publishDate.getFullYear).isSome then acc
     else acc ++ [(post.publishDate.getFullYear, [])])
    post.publishDate.getFullYear post

/-- Embeds `groupPostsByYear`: `posts.reduce(..., {})` building the year-keyed
record of buckets. -/
def groupPostsByYear (posts : List Post) : List (Int × List Post) :=
  posts.foldl groupStep []

/-- Embeds `getAllTags`: `posts.flatMap(post => [...post.data.tags])` — the spread
copies the tag array, so this is a plain flatMap. -/
def getAllTags (posts : List Post) : List String :=
  posts.flatMap (fun post => post.tags)

/-- Adding one element to a JS `Set` (insertion-ordered; re-adding a present
element leaves the set unchanged). -/
def setAdd (acc : List String) (t : String) : List String :=
  if acc.contains t then acc else acc ++ [t]

/-- Embeds `[...new Set(l)]`: the elements of `l` with duplicates removed, in
first-occurrence order. -/
def jsSetDedup (l : List String) : List String :=
  l.foldl setAdd []

/-- Embeds `getUniqueTags`: `[...new Set(getAllTags(posts))]`. -/
def getUniqueTags (posts : List Post) : List String :=
  jsSetDedup (getAllTags posts)

/-- Embeds `Map.prototype.get` on the insertion-ordered counting map. -/
def mapGet (acc : List (String × Nat)) (t : String) : Option Nat :=
  (acc.find? (fun e => e.1 == t)).map (fun e => e.2)

/-- Embeds `Map.prototype.set`: update the value in place when the key is present
(keeping its position), otherwise append the new entry at the end. -/
def mapSet (acc : List (String × Nat)) (t : String) (c : Nat) :
    List (String × Nat) :=
  if acc.any (fun e => e.1 == t) then
    acc.map (fun e => if e.1 == t then (e.1, c) else e)
  else
    acc ++ [(t, c)]

/-- One step of the `reduce` in `getUniqueTagsWithCount`:
`acc.set(t, (acc.get(t) ?? 0) + 1)`. -/
def tallyStep (acc : List (String × Nat)) (t : String) : List (String × Nat) :=
  mapSet acc t ((mapGet acc t).getD 0 + 1)

/-- The spread of the counting `Map` built by the `reduce` in
`getUniqueTagsWithCount`, before sorting: entries in insertion order. -/
def tagTally (posts : List Post) : List (String × Nat) :=
  (getAllTags posts).foldl tallyStep []

/-- The sort comparator `(a, b) => b[1] - a[1]`: `a` may stay before `b`
exactly when `b.2 ≤ a.2`, i.e. counts are sorted descending. -/
def countDesc (a b : String × Nat) : Bool :=
  decide (b.2 ≤ a.2)

/-- Embeds `getUniqueTagsWithCount`: spread the counting map and sort by count
descending.  JS `Array.prototype.sort` is a stable sort, and the stable sort
of a list under a total preorder is unique, so `List.mergeSort` (stable)
with `countDesc` embeds it exactly. -/
def getUniqueTagsWithCount (posts : List Post) : List (String × Nat) :=
  (tagTally posts).mergeSort countDesc

/-- Spec-side formulation of the development-mode filter: the input sequence
with exactly the articles having `draft = true` removed, order preserved. -/
def specMinusDrafts : List Post → List Post
  | [] => []
  | p :: rest => if p.draft then specMinusDrafts rest else p :: specMinusDrafts rest

/-- Number of articles whose tag list contains the given tag (the count the
spec ascribes to the frequency table). -/
def countArticlesWithTag (posts : List Post) (t : String) : Nat :=
  (posts.filter (fun p => p.tags.contains t)).length

/-- C1: in production mode the visibility filter lets through no draft and
no article whose id starts with the demo path `"demo/"`. -/
theorem production_filter_excludes_drafts_and_demo
    (posts : List Post) (p : Post) (h : p ∈ getAllPosts true posts) :
    p.draft = false ∧ strStartsWith p.id ("demo/") = false := by
  unfold getAllPosts visibleInMode at h
  simp only [List.mem_filter, if_pos, Bool.and_eq_true, Bool.not_eq_true'] at h
  exact ⟨h.2.1, h.2.2⟩

/-- C1 witness: the theorem applied to a concrete non-draft, non-demo post. -/
theorem production_filter_excludes_drafts_and_demo_witness :
    (⟨"post/a", false, ⟨2024⟩, []⟩ : Post).draft = false ∧
      strStartsWith (⟨"post/a", false, ⟨2024⟩, []⟩ : Post).id ("demo/") = false :=
  production_filter_excludes_drafts_and_demo
    [⟨"post/a", false, ⟨2024⟩, []⟩] ⟨"post/a", false, ⟨2024⟩, []⟩ (by decide)

/-- C2: in development mode the visibility filter returns the input with
exactly the drafts removed, order preserved (demo articles retained). -/
theorem development_filter_removes_exactly_drafts (posts : List Post) :
    getAllPosts false posts = specMinusDrafts posts := by
  induction posts with
  | nil => rfl
  | cons p rest ih =>
    unfold getAllPosts specMinusDrafts visibleInMode
    by_cases hd : p.draft
    · simp [List.filter_cons, hd]
      unfold getAllPosts visibleInMode at ih
      simpa [hd] using ih
    · simp [List.filter_cons, hd]
      unfold getAllPosts visibleInMode at ih
      simpa [hd] using ih

/-- C4: the flattened tag sequence is the in-order concatenation of the
articles' tag lists (duplicates retained, empty lists contributing nothing),
and its length is the sum of the per-article tag-list lengths. -/
theorem allTags_concat_and_length (posts : List Post) :
    getAllTags posts = (posts.map Post.tags).flatten ∧
      (getAllTags posts).length = (posts.map (fun p => p.tags.length)).sum := by
  have h : getAllTags posts = (posts.map Post.tags).flatten := by
    induction posts with
    | nil => rfl
    | cons p rest ih =>
      simp only [getAllTags, List.flatMap_cons, List.map_cons, List.flatten_cons]
      simp only [getAllTags] at ih
      rw [ih]
  refine ⟨h, ?_⟩
  rw [h, List.length_flatten, List.map_map]
  rfl

/-- The three-article input of the worked example in the spec. -/
def examplePosts : List Post :=
  [⟨"p1", false, ⟨2024⟩, ["a", "b"]⟩,
   ⟨"p2", false, ⟨2024⟩, ["b"]⟩,
   ⟨"p3", false, ⟨2024⟩, ["a"]⟩]

/-- C8: on the worked example the three tag views produce exactly the
sequences the spec lists. -/
theorem example_tag_views :
    getAllTags examplePosts = ["a", "b", "b", "a"] ∧
      getUniqueTags examplePosts = ["a", "b"] ∧
      getUniqueTagsWithCount examplePosts = [("a", 2), ("b", 2)] := by
  refine ⟨by decide, by decide, ?_⟩
  show (tagTally examplePosts).mergeSort countDesc = [("a", 2), ("b", 2)]
  have h : tagTally examplePosts = [("a", 2), ("b", 2)] := by decide
  rw [h]
  exact List.mergeSort_of_sorted (by decide)

/-- Folding `setAdd` never creates a duplicate. -/
theorem setFold_nodup (l : List String) :
    ∀ acc : List String, acc.Nodup → (l.foldl setAdd acc).Nodup := by
  induction l with
  | nil => exact fun acc h => h
  | cons t rest ih =>
    intro acc h
    simp only [List.foldl_cons]
    apply ih
    by_cases ht : t ∈ acc
    · simpa [setAdd, ht] using h
    · simp [setAdd, ht, List.nodup_append, h]

/-- Folding `setAdd` collects exactly the members of the accumulator and of
the traversed list. -/
theorem setFold_mem (l : List String) :
    ∀ (acc : List String) (x : String),
      x ∈ l.foldl setAdd acc ↔ x ∈ acc ∨ x ∈ l := by
  induction l with
  | nil => simp
  | cons t rest ih =>
    intro acc x
    simp only [List.foldl_cons]
    rw [ih]
    by_cases ht : t ∈ acc
    · simp only [setAdd, ht, if_pos, List.elem_eq_true_of_mem, List.mem_cons]
      constructor
      · tauto
      · rintro (hx | hx | hx)
        · tauto
        · subst hx; tauto
        · tauto
    · have hc : acc.contains t = false := by
        simpa using ht
      simp only [setAdd, hc, Bool.false_eq_true, if_neg, not_false_iff,
        List.mem_append, List.mem_singleton, List.mem_cons]
      tauto

/-- C5: the unique-tag view has no duplicate values and contains exactly the
values occurring in the flattened tag sequence. -/
theorem uniqueTags_nodup_and_mem (posts : List Post) :
    (getUniqueTags posts).Nodup ∧
      ∀ x, x ∈ getUniqueTags posts ↔ x ∈ getAllTags posts := by
  constructor
  · exact setFold_nodup _ [] List.nodup_nil
  · intro x
    unfold getUniqueTags jsSetDedup
    rw [setFold_mem]
    simp

/-- Updating the value stored at one key of an association list (keys are
kept in place) commutes with lookup: only the looked-up key's value is
mapped. -/
theorem find?_update_key {α β : Type} [BEq α] [LawfulBEq α]
    (m : List (α × β)) (k j : α) (f : β → β) :
    (m.map (fun e => if e.1 == k then (e.1, f e.2) else e)).find?
        (fun e => e.1 == j) =
      if k == j then (m.find? (fun e => e.1 == j)).map (fun e => (e.1, f e.2))
      else m.find? (fun e => e.1 == j) := by
  induction m with
  | nil => by_cases h : (k == j) = true <;> simp [h]
  | cons e rest ih =>
    by_cases hk : (e.1 == k) = true
    · by_cases hj : (e.1 == j) = true
      · have hkj : (k == j) = true := by
          rw [beq_iff_eq] at hk hj ⊢
          rw [← hk, hj]
        simp [List.find?_cons, hk, hj, hkj]
      · have hj' : (e.1 == j) = false := by simpa using hj
        have hkj : (k == j) = false := by
          refine beq_eq_false_iff_ne.mpr (fun h2 => ?_)
          exact hj (beq_iff_eq.mpr ((beq_iff_eq.mp hk).trans h2))
        simp only [List.map_cons, List.find?_cons, hk, if_pos, hj',
          Bool.false_eq_true, if_neg]
        rw [ih, hkj]
    · have hk' : (e.1 == k) = false := by simpa using hk
      by_cases hj : (e.1 == j) = true
      · have hkj : (k == j) = false := by
          refine beq_eq_false_iff_ne.mpr (fun h2 => ?_)
          exact hk (beq_iff_eq.mpr ((beq_iff_eq.mp hj).trans h2.symm))
        simp [List.find?_cons, hk', hj, hkj]
      · have hj' : (e.1 == j) = false := by simpa using hj
        simp [List.find?_cons, hk', hj', ih]

/-- Pushing onto the bucket at key `y` changes only the lookup at `y`,
appending the pushed post. -/
theorem yearGet_yearPush (acc : List (Int × List Post)) (y : Int) (x : Post)
    (k : Int) :
    yearGet (yearPush acc y x) k =
      if y == k then (yearGet acc k).map (fun b => b ++ [x])
      else yearGet acc k := by
  unfold yearGet yearPush
  rw [find?_update_key acc y k (fun b => b ++ [x])]
  by_cases h : (y == k) = true
  · cases hf : acc.find? (fun e => e.1 == k) <;> simp [h, hf]
  · have h' : (y == k) = false := by simpa using h
    simp [h']

/-- Appending a fresh bucket at the end affects lookup only when no earlier
entry matches. -/
theorem yearGet_append_single (acc : List (Int × List Post)) (y : Int)
    (b : List Post) (k : Int) :
    yearGet (acc ++ [(y, b)]) k =
      (yearGet acc k).or (if y == k then some b else none) := by
  unfold yearGet
  rw [List.find?_append]
  cases hf : acc.find? (fun e => e.1 == k)
  · by_cases h : (y == k) = true
    · simp [h]
    · have h' : (y == k) = false := by simpa using h
      simp [h']
  · simp

/-- One `groupStep` appends the post to the bucket of its publish year
(creating it from the empty bucket if absent) and leaves every other
year's lookup unchanged. -/
theorem yearGet_groupStep (acc : List (Int × List Post)) (p : Post) (k : Int) :
    yearGet (groupStep acc p) k =
      if p.publishDate.getFullYear == k
      then some ((yearGet acc k).getD [] ++ [p])
      else yearGet acc k := by
  unfold groupStep
  by_cases hy : (p.publishDate.getFullYear == k) = true
  · have hyk : p.publishDate.getFullYear = k := beq_iff_eq.mp hy
    rw [hyk]
    cases hg : yearGet acc k with
    | some bk =>
      simp only [hg, Option.isSome_some, if_pos]
      rw [yearGet_yearPush]
      simp [hg]
    | none =>
      have hacc2 : (if (none : Option (List Post)).isSome = true then acc
          else acc ++ [(k, [])]) = acc ++ [(k, [])] := by
        simp
      rw [hacc2, yearGet_yearPush]
      simp only [beq_self_eq_true, if_pos]
      rw [yearGet_append_single, hg]
      simp
  · have hy' : (p.publishDate.getFullYear == k) = false := by simpa using hy
    have hget :
        yearGet (if (yearGet acc p.publishDate.getFullYear).isSome then acc
          else acc ++ [(p.publishDate.getFullYear, [])]) k = yearGet acc k := by
      by_cases hs : (yearGet acc p.publishDate.getFullYear).isSome = true
      · simp [hs]
      · have hs' : (yearGet acc p.publishDate.getFullYear).isSome = false := by
          simpa using hs
        have hacc1 : (if (yearGet acc p.publishDate.getFullYear).isSome then acc
            else acc ++ [(p.publishDate.getFullYear, [])]) =
              acc ++ [(p.publishDate.getFullYear, [])] := by
          rw [hs']
          simp
        rw [hacc1, yearGet_append_single, hy']
        simp
    rw [yearGet_yearPush, hget, hy']
    simp

/-- Folding `groupStep` over further posts extends an already-present bucket
by exactly the matching posts, in input order. -/
theorem yearGet_foldl_some (posts : List Post) :
    ∀ (acc : List (Int × List Post)) (k : Int) (b : List Post),
      yearGet acc k = some b →
      yearGet (posts.foldl groupStep acc) k =
        some (b ++ posts.filter (fun p => p.publishDate.getFullYear == k)) := by
  induction posts with
  | nil =>
    intro acc k b h
    simpa using h
  | cons p rest ih =>
    intro acc k b h
    simp only [List.foldl_cons, List.filter_cons]
    by_cases hy : (p.publishDate.getFullYear == k) = true
    · rw [ih (groupStep acc p) k (b ++ [p])
        (by rw [yearGet_groupStep, if_pos hy, h]; rfl)]
      rw [if_pos hy]
      simp
    · rw [ih (groupStep acc p) k b
        (by rw [yearGet_groupStep, if_neg hy]; exact h)]
      rw [if_neg hy]

/-- Folding `groupStep` over posts starting from an accumulator without the
key yields exactly the matching posts (no bucket at all when none match). -/
theorem yearGet_foldl_none (posts : List Post) :
    ∀ (acc : List (Int × List Post)) (k : Int),
      yearGet acc k = none →
      yearGet (posts.foldl groupStep acc) k =
        (if posts.filter (fun p => p.publishDate.getFullYear == k) = []
         then none
         else some (posts.filter (fun p => p.publishDate.getFullYear == k))) := by
  induction posts with
  | nil =>
    intro acc k h
    simpa using h
  | cons p rest ih =>
    intro acc k h
    simp only [List.foldl_cons, List.filter_cons]
    by_cases hy : (p.publishDate.getFullYear == k) = true
    · rw [yearGet_foldl_some rest (groupStep acc p) k [p]
        (by rw [yearGet_groupStep, if_pos hy, h]; rfl)]
      rw [if_pos hy, if_neg (by simp)]
      simp
    · rw [ih (groupStep acc p) k
        (by rw [yearGet_groupStep, if_neg hy]; exact h)]
      rw [if_neg hy]

/-- C3: the year grouping partitions its input exactly.  Looking a year up in
the built record yields precisely the input posts published that year, in
input order, and yields nothing (no key) exactly when no input post has that
year — so every post lands in exactly the bucket of its own publish year,
bucket order is encounter order, and no present key has an empty bucket. -/
theorem groupPostsByYear_partition (posts : List Post) (k : Int) :
    yearGet (groupPostsByYear posts) k =
      (if posts.filter (fun p => p.publishDate.getFullYear == k) = []
       then none
       else some (posts.filter (fun p => p.publishDate.getFullYear == k))) :=
  yearGet_foldl_none posts [] k rfl

/-- Appending a fresh entry to the counting map affects lookup only when no
earlier entry matches. -/
theorem mapGet_append_single (acc : List (String × Nat)) (y : String) (b : Nat)
    (k : String) :
    mapGet (acc ++ [(y, b)]) k =
      (mapGet acc k).or (if y == k then some b else none) := by
  unfold mapGet
  rw [List.find?_append]
  cases hf : acc.find? (fun e => e.1 == k)
  · by_cases h : (y == k) = true
    · simp [h]
    · have h' : (y == k) = false := by simpa using h
      simp [h']
  · simp

/-- Overwriting the value stored at one tag of the counting map changes only
that tag's lookup. -/
theorem mapGet_update (acc : List (String × Nat)) (t k : String) (c : Nat) :
    mapGet (acc.map (fun e => if e.1 == t then (e.1, c) else e)) k =
      if t == k then (mapGet acc k).map (fun _ => c) else mapGet acc k := by
  unfold mapGet
  rw [find?_update_key acc t k (fun _ => c)]
  by_cases h : (t == k) = true
  · cases hf : acc.find? (fun e => e.1 == k) <;> simp [h, hf]
  · have h' : (t == k) = false := by simpa using h
    simp [h']

/-- One counting step increments the looked-up tag's entry (starting from 0
when absent) and leaves every other tag's lookup unchanged. -/
theorem mapGet_tallyStep (acc : List (String × Nat)) (t k : String) :
    mapGet (tallyStep acc t) k =
      if t == k then some ((mapGet acc k).getD 0 + 1) else mapGet acc k := by
  unfold tallyStep mapSet
  by_cases ha : acc.any (fun e => e.1 == t) = true
  · rw [if_pos ha, mapGet_update]
    by_cases htk : (t == k) = true
    · rw [if_pos htk, if_pos htk]
      have ht : t = k := beq_iff_eq.mp htk
      subst ht
      cases hf : mapGet acc t with
      | some v => simp [hf]
      | none =>
        exfalso
        have hfn : acc.find? (fun e => e.1 == t) = none := by
          unfold mapGet at hf
          cases hq : acc.find? (fun e => e.1 == t)
          · rfl
          · rw [hq] at hf
            cases hf
        rw [List.find?_eq_none] at hfn
        obtain ⟨x, hx, hpx⟩ := List.any_eq_true.mp ha
        exact (hfn x hx) hpx
    · have htk' : (t == k) = false := by simpa using htk
      rw [htk']
      simp
  · have ha' : acc.any (fun e => e.1 == t) = false := by
      cases hb : acc.any (fun e => e.1 == t)
      · rfl
      · exact absurd hb ha
    have happ : (if acc.any (fun e => e.1 == t) = true then
        acc.map (fun e => if e.1 == t then (e.1, (mapGet acc t).getD 0 + 1) else e)
      else acc ++ [(t, (mapGet acc t).getD 0 + 1)]) =
        acc ++ [(t, (mapGet acc t).getD 0 + 1)] := by
      rw [ha']
      simp
    rw [happ, mapGet_append_single]
    by_cases htk : (t == k) = true
    · rw [if_pos htk, if_pos htk]
      have ht : t = k := beq_iff_eq.mp htk
      subst ht
      have hnone : mapGet acc t = none := by
        unfold mapGet
        rw [List.find?_eq_none.mpr (List.any_eq_false.mp ha')]
        rfl
      rw [hnone]
      simp
    · have htk' : (t == k) = false := by simpa using htk
      rw [htk']
      simp

/-- Adding to the JS set keeps it duplicate-free. -/
theorem setAdd_nodup (acc : List String) (t : String) (h : acc.Nodup) :
    (setAdd acc t).Nodup := by
  by_cases ht : t ∈ acc
  · simpa [setAdd, ht] using h
  · simp [setAdd, ht, List.nodup_append, h]

/-- The key sequence of one counting step evolves exactly like one JS set
insertion: unchanged when the tag is present, appended otherwise. -/
theorem keys_tallyStep (acc : List (String × Nat)) (t : String) :
    (tallyStep acc t).map Prod.fst = setAdd (acc.map Prod.fst) t := by
  unfold tallyStep mapSet setAdd
  by_cases hm : t ∈ acc.map Prod.fst
  · have ha : acc.any (fun e => e.1 == t) = true := by
      rw [List.any_eq_true]
      obtain ⟨e, he, hfst⟩ := List.mem_map.mp hm
      exact ⟨e, he, by rw [beq_iff_eq]; exact hfst⟩
    have hc : (acc.map Prod.fst).contains t = true := by simpa using hm
    rw [if_pos ha, if_pos hc, List.map_map]
    apply List.map_congr_left
    intro e _
    by_cases het : e.1 = t <;> simp [het]
  · have ha : acc.any (fun e => e.1 == t) = false := by
      rw [List.any_eq_false]
      intro e he hpe
      exact hm (List.mem_map.mpr ⟨e, he, beq_iff_eq.mp hpe⟩)
    have hc : (acc.map Prod.fst).contains t = false := by simpa using hm
    have h1 : (if acc.any (fun e => e.1 == t) = true then
        acc.map (fun e => if e.1 == t then (e.1, (mapGet acc t).getD 0 + 1) else e)
      else acc ++ [(t, (mapGet acc t).getD 0 + 1)]) =
        acc ++ [(t, (mapGet acc t).getD 0 + 1)] := by
      rw [ha]
      simp
    have h2 : (if (acc.map Prod.fst).contains t = true then acc.map Prod.fst
        else acc.map Prod.fst ++ [t]) = acc.map Prod.fst ++ [t] := by
      rw [hc]
      simp
    rw [h1, h2, List.map_append]
    simp

/-- Folding counting steps produces keys exactly as folding set insertions
over the same tags. -/
theorem keys_tally_foldl (l : List String) :
    ∀ acc : List (String × Nat),
      (l.foldl tallyStep acc).map Prod.fst = l.foldl setAdd (acc.map Prod.fst) := by
  induction l with
  | nil => intro acc; rfl
  | cons t rest ih =>
    intro acc
    simp only [List.foldl_cons]
    rw [ih, keys_tallyStep]

/-- The counting map lists tags in first-occurrence order: its key sequence
is exactly the unique-tag view. -/
theorem keys_tagTally (posts : List Post) :
    (tagTally posts).map Prod.fst = getUniqueTags posts := by
  unfold tagTally getUniqueTags jsSetDedup
  rw [keys_tally_foldl]
  rfl

/-- The counting map never holds two entries for the same tag. -/
theorem keys_tagTally_nodup (posts : List Post) :
    ((tagTally posts).map Prod.fst).Nodup := by
  rw [keys_tagTally]
  show (List.foldl setAdd [] (getAllTags posts)).Nodup
  exact setFold_nodup _ [] List.nodup_nil

/-- In an association list with duplicate-free keys, lookup by the key of a
member returns that member. -/
theorem find?_key_of_mem_of_nodup {α β : Type} [BEq α] [LawfulBEq α]
    (m : List (α × β)) (e : α × β) (hn : (m.map Prod.fst).Nodup) (he : e ∈ m) :
    m.find? (fun x => x.1 == e.1) = some e := by
  induction m with
  | nil => cases he
  | cons f rest ih =>
    have hn' : f.1 ∉ rest.map Prod.fst ∧ (rest.map Prod.fst).Nodup := by
      rw [List.map_cons, List.nodup_cons] at hn
      exact hn
    rcases List.mem_cons.mp he with hef | her
    · subst hef
      simp [List.find?_cons]
    · have hfe : (f.1 == e.1) = false := by
        refine beq_eq_false_iff_ne.mpr (fun hq => ?_)
        have hm1 : e.1 ∈ rest.map Prod.fst := List.mem_map.mpr ⟨e, her, rfl⟩
        exact hn'.1 (hq ▸ hm1)
      have hrec := ih hn'.2 her
      simp [List.find?_cons, hfe, hrec]

/-- Folding counting steps over further tags adds exactly the number of
occurrences to an already-present entry. -/
theorem mapGet_foldl_some (l : List String) :
    ∀ (acc : List (String × Nat)) (t : String) (v : Nat),
      mapGet acc t = some v →
      mapGet (l.foldl tallyStep acc) t = some (v + l.count t) := by
  induction l with
  | nil =>
    intro acc t v h
    simpa using h
  | cons s rest ih =>
    intro acc t v h
    simp only [List.foldl_cons]
    by_cases hst : (s == t) = true
    · rw [ih (tallyStep acc s) t (v + 1)
        (by rw [mapGet_tallyStep, if_pos hst, h]; rfl)]
      rw [List.count_cons, if_pos hst]
      have harith : v + 1 + rest.count t = v + (rest.count t + 1) := by omega
      rw [harith]
    · have hst' : (s == t) = false := by simpa using hst
      rw [ih (tallyStep acc s) t v
        (by rw [mapGet_tallyStep, hst']; simpa using h)]
      rw [List.count_cons, hst']
      simp

/-- Folding counting steps starting with no entry for a tag produces exactly
its occurrence count (and no entry at all when it never occurs). -/
theorem mapGet_foldl_none (l : List String) :
    ∀ (acc : List (String × Nat)) (t : String),
      mapGet acc t = none →
      mapGet (l.foldl tallyStep acc) t =
        (if l.count t = 0 then none else some (l.count t)) := by
  induction l with
  | nil =>
    intro acc t h
    simpa using h
  | cons s rest ih =>
    intro acc t h
    simp only [List.foldl_cons]
    by_cases hst : (s == t) = true
    · rw [mapGet_foldl_some rest (tallyStep acc s) t 1
        (by rw [mapGet_tallyStep, if_pos hst, h]; rfl)]
      rw [List.count_cons, if_pos hst, if_neg (by omega)]
      have harith : 1 + rest.count t = rest.count t + 1 := by omega
      rw [harith]
    · have hst' : (s == t) = false := by simpa using hst
      rw [ih (tallyStep acc s) t
        (by rw [mapGet_tallyStep, hst']; simpa using h)]
      rw [List.count_cons, hst']
      simp

/-- C6 counterexample: the claim that each count equals the number of
articles containing the tag fails on one article whose tag list holds the
same tag twice — the code counts occurrences, not articles. -/
theorem tagCount_not_article_count :
    ¬ ∀ (posts : List Post) (t : String) (c : Nat),
        (t, c) ∈ getUniqueTagsWithCount posts →
          c = countArticlesWithTag posts t := by
  intro hall
  have h1 : tagTally [⟨"p", false, ⟨2024⟩, ["a", "a"]⟩] = [("a", 2)] := by
    decide
  have hmem : (("a" : String), 2) ∈
      getUniqueTagsWithCount [⟨"p", false, ⟨2024⟩, ["a", "a"]⟩] := by
    show (("a" : String), 2) ∈
      (tagTally [⟨"p", false, ⟨2024⟩, ["a", "a"]⟩]).mergeSort countDesc
    refine ((List.mergeSort_perm _ countDesc).mem_iff).mpr ?_
    rw [h1]
    decide
  have h2 := hall _ ("a") 2 hmem
  have h3 : countArticlesWithTag [⟨"p", false, ⟨2024⟩, ["a", "a"]⟩] ("a") = 1 := by
    decide
  rw [h3] at h2
  exact (by decide : (2 : Nat) ≠ 1) h2

/-- C6 (amended): each entry of the frequency table pairs a tag with the
number of occurrences of that tag in the flattened tag sequence (so an
article listing a tag twice contributes two, not one). -/
theorem tagCount_eq_occurrences (posts : List Post) (t : String) (c : Nat)
    (h : (t, c) ∈ getUniqueTagsWithCount posts) :
    c = (getAllTags posts).count t := by
  have hmem : (t, c) ∈ tagTally posts :=
    ((List.mergeSort_perm (tagTally posts) countDesc).mem_iff).mp h
  have hn : ((tagTally posts).map Prod.fst).Nodup := keys_tagTally_nodup posts
  have hf : (tagTally posts).find? (fun x => x.1 == t) = some (t, c) :=
    find?_key_of_mem_of_nodup (tagTally posts) (t, c) hn hmem
  have hg : mapGet (tagTally posts) t = some c := by
    unfold mapGet
    rw [hf]
    rfl
  have hchar := mapGet_foldl_none (getAllTags posts) [] t rfl
  unfold tagTally at hg
  rw [hchar] at hg
  by_cases h0 : (getAllTags posts).count t = 0
  · rw [if_pos h0] at hg
    cases hg
  · rw [if_neg h0] at hg
    injection hg with h2
    exact h2.symm

/-- C6 witness: the amended theorem applied to the duplicated-tag article. -/
theorem tagCount_eq_occurrences_witness :
    2 = (getAllTags [⟨"w", false, ⟨2024⟩, ["a", "a"]⟩]).count ("a") := by
  have h1 : tagTally [⟨"w", false, ⟨2024⟩, ["a", "a"]⟩] = [("a", 2)] := by
    decide
  refine tagCount_eq_occurrences [⟨"w", false, ⟨2024⟩, ["a", "a"]⟩] ("a") 2 ?_
  show (("a" : String), 2) ∈
    (tagTally [⟨"w", false, ⟨2024⟩, ["a", "a"]⟩]).mergeSort countDesc
  refine ((List.mergeSort_perm _ countDesc).mem_iff).mpr ?_
  rw [h1]
  decide

/-- Lookup on a non-empty counting map: hit the head or continue. -/
theorem mapGet_cons (f : String × Nat) (rest : List (String × Nat))
    (t : String) :
    mapGet (f :: rest) t = if f.1 == t then some f.2 else mapGet rest t := by
  unfold mapGet
  by_cases hft : (f.1 == t) = true
  · rw [if_pos hft, List.find?_cons_of_pos rest hft]
    simp
  · have hft' : (f.1 == t) = false := by simpa using hft
    rw [hft', List.find?_cons_of_neg rest hft]
    simp

/-- Updating at a key that is absent from the counting map does nothing. -/
theorem map_update_id (acc : List (String × Nat)) (t : String) (c : Nat)
    (h : t ∉ acc.map Prod.fst) :
    acc.map (fun e => if e.1 == t then (e.1, c) else e) = acc := by
  have hcong : ∀ e ∈ acc, (if e.1 == t then (e.1, c) else e) = e := by
    intro e he
    have hne : e.1 ≠ t := fun hq => h (List.mem_map.mpr ⟨e, he, hq⟩)
    simp [hne]
  calc acc.map (fun e => if e.1 == t then (e.1, c) else e)
      = acc.map id := List.map_congr_left hcong
    _ = acc := List.map_id acc

/-- Overwriting the unique entry of a present key with its value plus one
raises the total of all counts by exactly one. -/
theorem sum_update_incr (acc : List (String × Nat)) :
    ∀ (t : String) (v : Nat),
      (acc.map Prod.fst).Nodup → mapGet acc t = some v →
      ((acc.map (fun e => if e.1 == t then (e.1, v + 1) else e)).map
          (fun e => e.2)).sum =
        (acc.map (fun e => e.2)).sum + 1 := by
  induction acc with
  | nil =>
    intro t v hn h
    simp [mapGet] at h
  | cons f rest ih =>
    intro t v hn h
    have hn' : f.1 ∉ rest.map Prod.fst ∧ (rest.map Prod.fst).Nodup := by
      rw [List.map_cons, List.nodup_cons] at hn
      exact hn
    rw [mapGet_cons] at h
    by_cases hft : (f.1 == t) = true
    · have hv : v = f.2 := by
        rw [if_pos hft] at h
        injection h with h2
        exact h2.symm
      have htf : f.1 = t := beq_iff_eq.mp hft
      have hrest : rest.map (fun e => if e.1 == t then (e.1, v + 1) else e)
          = rest := map_update_id rest t (v + 1) (htf ▸ hn'.1)
      rw [List.map_cons, hrest, if_pos hft]
      simp only [List.map_cons, List.sum_cons]
      rw [hv]
      omega
    · have hft' : (f.1 == t) = false := by simpa using hft
      rw [hft'] at h
      simp only [Bool.false_eq_true, if_false] at h
      have hrec := ih t v hn'.2 h
      rw [List.map_cons, hft']
      simp only [Bool.false_eq_true, if_false, List.map_cons, List.sum_cons]
      rw [hrec]
      omega

/-- One counting step raises the total of all counts by exactly one. -/
theorem sum_tallyStep (acc : List (String × Nat)) (t : String)
    (hn : (acc.map Prod.fst).Nodup) :
    ((tallyStep acc t).map (fun e => e.2)).sum =
      (acc.map (fun e => e.2)).sum + 1 := by
  unfold tallyStep mapSet
  by_cases ha : acc.any (fun e => e.1 == t) = true
  · rw [if_pos ha]
    obtain ⟨x, hx, hpx⟩ := List.any_eq_true.mp ha
    have hsome : ∃ v, mapGet acc t = some v := by
      unfold mapGet
      cases hq : acc.find? (fun e => e.1 == t) with
      | some e => exact ⟨e.2, by simp⟩
      | none =>
        rw [List.find?_eq_none] at hq
        exact absurd hpx (hq x hx)
    obtain ⟨v, hv⟩ := hsome
    rw [hv, Option.getD_some]
    exact sum_update_incr acc t v hn hv
  · have ha' : acc.any (fun e => e.1 == t) = false := by
      cases hb : acc.any (fun e => e.1 == t)
      · rfl
      · exact absurd hb ha
    have happ : (if acc.any (fun e => e.1 == t) = true then
        acc.map (fun e => if e.1 == t then (e.1, (mapGet acc t).getD 0 + 1) else e)
      else acc ++ [(t, (mapGet acc t).getD 0 + 1)]) =
        acc ++ [(t, (mapGet acc t).getD 0 + 1)] := by
      rw [ha']
      simp
    have hnone : mapGet acc t = none := by
      unfold mapGet
      rw [List.find?_eq_none.mpr (List.any_eq_false.mp ha')]
      rfl
    rw [happ, List.map_append, List.sum_append, hnone]
    simp

/-- One counting step keeps the key sequence duplicate-free. -/
theorem nodup_keys_tallyStep (acc : List (String × Nat)) (t : String)
    (hn : (acc.map Prod.fst).Nodup) :
    ((tallyStep acc t).map Prod.fst).Nodup := by
  rw [keys_tallyStep]
  exact setAdd_nodup (acc.map Prod.fst) t hn

/-- Folding counting steps over a tag list raises the total of all counts by
its length. -/
theorem sum_tally_foldl (l : List String) :
    ∀ acc : List (String × Nat), (acc.map Prod.fst).Nodup →
      ((l.foldl tallyStep acc).map (fun e => e.2)).sum =
        (acc.map (fun e => e.2)).sum + l.length := by
  induction l with
  | nil =>
    intro acc _
    simp
  | cons t rest ih =>
    intro acc hn
    simp only [List.foldl_cons]
    rw [ih (tallyStep acc t) (nodup_keys_tallyStep acc t hn), sum_tallyStep acc t hn]
    simp only [List.length_cons]
    omega

/-- The descending-count ordering is transitive. -/
theorem countDesc_trans (a b c : String × Nat) (h1 : countDesc a b = true)
    (h2 : countDesc b c = true) : countDesc a c = true := by
  unfold countDesc at h1 h2 ⊢
  rw [decide_eq_true_iff] at h1 h2 ⊢
  omega

/-- The descending-count ordering is total. -/
theorem countDesc_total (a b : String × Nat) :
    (countDesc a b || countDesc b a) = true := by
  unfold countDesc
  rcases Nat.le_total a.2 b.2 with h | h <;> simp [h]

/-- C7: the counts of the frequency table sum to the length of the flattened
tag sequence, and the table is sorted non-increasing by count. -/
theorem tagCounts_sum_and_sorted (posts : List Post) :
    ((getUniqueTagsWithCount posts).map (fun e => e.2)).sum =
        (getAllTags posts).length ∧
      (getUniqueTagsWithCount posts).Pairwise (fun a b => b.2 ≤ a.2) := by
  constructor
  · have hperm : ((getUniqueTagsWithCount posts).map (fun e => e.2)).Perm
        ((tagTally posts).map (fun e => e.2)) :=
      (List.mergeSort_perm (tagTally posts) countDesc).map (fun e => e.2)
    rw [hperm.sum_eq]
    have := sum_tally_foldl (getAllTags posts) [] (by simp)
    unfold tagTally
    rw [this]
    simp
  · have hs := List.sorted_mergeSort
      (fun a b c h1 h2 => countDesc_trans a b c h1 h2)
      countDesc_total (tagTally posts)
    exact hs.imp (fun h => by
      unfold countDesc at h
      exact decide_eq_true_iff.mp h)

/-- C10: ties in the frequency table keep first-occurrence order.  If two
tags occur (in this order) in the unique-tag view — i.e. the first occurs
before the second in the flattened tag sequence — and their table entries
carry equal counts, then those entries occur in the same order in the
table: the counting map lists tags in first-occurrence order and the
descending sort is stable. -/
theorem tagCounts_tie_order (posts : List Post) (t₁ t₂ : String)
    (c₁ c₂ : Nat)
    (hfo : [t₁, t₂].Sublist (getUniqueTags posts))
    (h₁ : (t₁, c₁) ∈ getUniqueTagsWithCount posts)
    (h₂ : (t₂, c₂) ∈ getUniqueTagsWithCount posts)
    (hc : c₁ = c₂) :
    [(t₁, c₁), (t₂, c₂)].Sublist (getUniqueTagsWithCount posts) := by
  have hkeys : (tagTally posts).map Prod.fst = getUniqueTags posts :=
    keys_tagTally posts
  rw [← hkeys] at hfo
  obtain ⟨l2, hsub, hmap⟩ := List.sublist_map_iff.mp hfo
  have hn : ((tagTally posts).map Prod.fst).Nodup := keys_tagTally_nodup posts
  match l2, hmap, hsub with
  | [e₁, e₂], hmap, hsub =>
    have he₁t : e₁.1 = t₁ := by
      have := congrArg (fun l => l.headI) hmap
      simpa using this.symm
    have he₂t : e₂.1 = t₂ := by
      have := congrArg (fun l => l.getLast!) hmap
      simpa using this.symm
    have hm₁ : (t₁, c₁) ∈ tagTally posts :=
      ((List.mergeSort_perm (tagTally posts) countDesc).mem_iff).mp h₁
    have hm₂ : (t₂, c₂) ∈ tagTally posts :=
      ((List.mergeSort_perm (tagTally posts) countDesc).mem_iff).mp h₂
    have he₁ : e₁ = (t₁, c₁) := by
      have hf₁ : (tagTally posts).find? (fun x => x.1 == t₁) = some (t₁, c₁) :=
        find?_key_of_mem_of_nodup (tagTally posts) (t₁, c₁) hn hm₁
      have hf₂ : (tagTally posts).find? (fun x => x.1 == t₁) = some e₁ := by
        rw [← he₁t]
        exact find?_key_of_mem_of_nodup (tagTally posts) e₁ hn
          (hsub.subset (by simp))
      rw [hf₁] at hf₂
      injection hf₂ with h
      exact h.symm
    have he₂ : e₂ = (t₂, c₂) := by
      have hf₁ : (tagTally posts).find? (fun x => x.1 == t₂) = some (t₂, c₂) :=
        find?_key_of_mem_of_nodup (tagTally posts) (t₂, c₂) hn hm₂
      have hf₂ : (tagTally posts).find? (fun x => x.1 == t₂) = some e₂ := by
        rw [← he₂t]
        exact find?_key_of_mem_of_nodup (tagTally posts) e₂ hn
          (hsub.subset (by simp))
      rw [hf₁] at hf₂
      injection hf₂ with h
      exact h.symm
    subst he₁
    subst he₂
    exact List.sublist_mergeSort
      (fun a b c h1 h2 => countDesc_trans a b c h1 h2) countDesc_total
      (by
        have hcd : countDesc (t₁, c₁) (t₂, c₂) = true := by
          unfold countDesc
          rw [decide_eq_true_iff]
          omega
        simp [List.pairwise_cons, hcd])
      hsub

/-- C10 witness: the tie-order theorem applied to the worked example, where
both tags have count 2. -/
theorem tagCounts_tie_order_witness :
    [(("a" : String), 2), ("b", 2)].Sublist
      (getUniqueTagsWithCount
        [⟨"p1", false, ⟨2024⟩, ["a", "b"]⟩,
         ⟨"p2", false, ⟨2024⟩, ["b"]⟩,
         ⟨"p3", false, ⟨2024⟩, ["a"]⟩]) := by
  have h1 : tagTally
      [⟨"p1", false, ⟨2024⟩, ["a", "b"]⟩,
       ⟨"p2", false, ⟨2024⟩, ["b"]⟩,
       ⟨"p3", false, ⟨2024⟩, ["a"]⟩] = [("a", 2), ("b", 2)] := by
    decide
  have hmem : ∀ e ∈ [(("a" : String), 2), ("b", 2)],
      e ∈ getUniqueTagsWithCount
        [⟨"p1", false, ⟨2024⟩, ["a", "b"]⟩,
         ⟨"p2", false, ⟨2024⟩, ["b"]⟩,
         ⟨"p3", false, ⟨2024⟩, ["a"]⟩] := by
    intro e he
    show e ∈ (tagTally _).mergeSort countDesc
    refine ((List.mergeSort_perm _ countDesc).mem_iff).mpr ?_
    rw [h1]
    exact he
  refine tagCounts_tie_order _ ("a") ("b") 2 2 ?_ ?_ ?_ rfl
  · decide
  · exact hmem ("a", 2) (by decide)
  · exact hmem ("b", 2) (by decide)

/-- C9: every operation of the module is a total function of its inputs —
each one is defined for every article sequence (and build mode) and yields
a value. -/
theorem operations_total (prod : Bool) (posts : List Post) :
    ∃ (filtered : List Post) (grouped : List (Int × List Post))
      (tags utags : List String) (freq : List (String × Nat)),
      getAllPosts prod posts = filtered ∧
        groupPostsByYear posts = grouped ∧
        getAllTags posts = tags ∧
        getUniqueTags posts = utags ∧
        getUniqueTagsWithCount posts = freq :=
  ⟨_, _, _, _, _, rfl, rfl, rfl, rfl, rfl⟩
